import Mathlib

set_option linter.unusedSectionVars false
set_option linter.unusedVariables false

/-!
Verification of the `safemap` sharded concurrent map (Go package
`concurrentmap`) and the TTL-aware KV server built on it.

Sequential shallow embedding: each Go `bucket` (a `map[K]V` guarded by a
lock) is modelled as an association list with unique keys; the sharded
`ConcurrentMap` is a list of buckets plus a hasher; operations route a key
to `hasher k % numBuckets` exactly as `bucketIndexForKey` does.  Machine
integers: the `uint64` hash accumulator is a `Nat` reduced `% 2^64`; `int64`
counter values are `Int` with explicit two's-complement wraparound.
-/

namespace SafeMap

/-- `2^64`, the modulus of Go's `uint64` arithmetic. -/
def U64 : Nat := 2 ^ 64

/-- One step of the Go FNV-1a loop: `hash ^= byte; hash *= prime64`, both in
`uint64` (xor of values below `2^64` stays below `2^64`; the multiplication
wraps). -/
def fnvStep (h b : Nat) : Nat := ((h ^^^ b) * 1099511628211) % U64

/-- The FNV accumulator loop of `fnv64a` over a byte list, started from the
constant the source names `offset64` (`1469598103934665603`). -/
def fnv64aBytes (bs : List Nat) : Nat := bs.foldl fnvStep 1469598103934665603

/-- The UTF-8 bytes of a string, as Go's `s[i]` indexing exposes them. -/
def strBytes (s : String) : List Nat :=
  (s.data.flatMap String.utf8EncodeChar).map (fun b => b.toNat)

/-- Embedding of `fnv64a` (counter_map.go): iterates over the UTF-8 bytes of
the string, as Go's `s[i]` does. -/
def fnv64a (s : String) : Nat := fnv64aBytes (strBytes s)

/-- Reference definition of 64-bit FNV-1a, following the spec's words: start
from the 64-bit FNV offset basis `14695981039346656037`, then for each byte
xor and multiply by the FNV prime, wrapping modulo `2^64`. -/
def fnv1aRefBytes (bs : List Nat) : Nat := bs.foldl fnvStep 14695981039346656037

/-- Reference FNV-1a on strings (spec side of claim C1). -/
def fnv1aRef (s : String) : Nat := fnv1aRefBytes (strBytes s)

/-- Wrap an integer into the signed 64-bit range `[-2^63, 2^63)`. -/
def wrap64 (z : Int) : Int := (z + 2 ^ 63) % 2 ^ 64 - 2 ^ 63

/-- Go `int64` addition: two's-complement wraparound of the exact sum. -/
def int64add (a b : Int) : Int := wrap64 (a + b)

variable {K V : Type}

/-- Lookup in one bucket's map: Go `v, ok := b.m[k]`. -/
def mapGet [DecidableEq K] : List (K × V) → K → Option V
  | [], _ => none
  | (k', v') :: rest, k => if k' = k then some v' else mapGet rest k

/-- Insert-or-overwrite in one bucket's map: Go `b.m[k] = v`. -/
def mapSet [DecidableEq K] : List (K × V) → K → V → List (K × V)
  | [], k, v => [(k, v)]
  | (k', v') :: rest, k, v =>
    if k' = k then (k, v) :: rest else (k', v') :: mapSet rest k v

/-- Removal from one bucket's map: Go `delete(b.m, k)`. -/
def mapDel [DecidableEq K] : List (K × V) → K → List (K × V)
  | [], _ => []
  | (k', v') :: rest, k => if k' = k then rest else (k', v') :: mapDel rest k

/-- The sharded map (struct `ConcurrentMap`): a fixed array of buckets and a
hasher.  The Go `numBuckets` is `buckets.length`. -/
structure ConcurrentMap (K V : Type) where
  buckets : List (List (K × V))
  hasher : K → Nat

/-- `New`: `numBuckets` empty buckets (panics on `numBuckets ≤ 0`, so the
embedding is used under the hypothesis `0 < n`). -/
def ConcurrentMap.New (n : Nat) (hasher : K → Nat) : ConcurrentMap K V :=
  ⟨List.replicate n [], hasher⟩

/-- `bucketIndexForKey`: `int(h % uint64(len(cm.buckets)))`. -/
def ConcurrentMap.bucketIndexForKey (cm : ConcurrentMap K V) (k : K) : Nat :=
  cm.hasher k % cm.buckets.length

/-- The bucket a key routes to. -/
def ConcurrentMap.bucketFor [DecidableEq K] (cm : ConcurrentMap K V) (k : K) : List (K × V) :=
  cm.buckets.getD (cm.bucketIndexForKey k) []

/-- Internal lookup shared by `Get`: the comma-ok map read. -/
def ConcurrentMap.find [DecidableEq K] (cm : ConcurrentMap K V) (k : K) : Option V :=
  mapGet (cm.bucketFor k) k

/-- `Get`: Go's `(V, bool)` comma-ok result, zero value when absent. -/
def ConcurrentMap.Get [DecidableEq K] [Inhabited V] (cm : ConcurrentMap K V) (k : K) :
    V × Bool :=
  ((cm.find k).getD default, (cm.find k).isSome)

/-- `Set`: unconditional insert-or-overwrite in the key's bucket. -/
def ConcurrentMap.Set [DecidableEq K] (cm : ConcurrentMap K V) (k : K) (v : V) :
    ConcurrentMap K V :=
  let idx := cm.bucketIndexForKey k
  ⟨cm.buckets.set idx (mapSet (cm.buckets.getD idx []) k v), cm.hasher⟩

/-- `Delete`: remove the key from its bucket (no-op if absent). -/
def ConcurrentMap.Delete [DecidableEq K] (cm : ConcurrentMap K V) (k : K) :
    ConcurrentMap K V :=
  let idx := cm.bucketIndexForKey k
  ⟨cm.buckets.set idx (mapDel (cm.buckets.getD idx []) k), cm.hasher⟩

/-- `Len`: sum of the per-bucket sizes, accumulated bucket by bucket. -/
def ConcurrentMap.Len (cm : ConcurrentMap K V) : Nat :=
  cm.buckets.foldl (fun total b => total + b.length) 0

/-- `LoadOrStore`: return the existing value with `loaded = true`, else
insert and return the argument with `loaded = false`.  The Go method
mutates the receiver; the embedding returns the result pair and the new
map. -/
def ConcurrentMap.LoadOrStore [DecidableEq K] (cm : ConcurrentMap K V) (k : K) (v : V) :
    (V × Bool) × ConcurrentMap K V :=
  let idx := cm.bucketIndexForKey k
  let b := cm.buckets.getD idx []
  match mapGet b k with
  | some existing => ((existing, true), cm)
  | none => ((v, false), ⟨cm.buckets.set idx (mapSet b k v), cm.hasher⟩)

/-- `Compute`: read `(old, exists)` (zero value if absent), apply `fn`;
`keep = false` deletes the key, `keep = true` stores the new value. -/
def ConcurrentMap.Compute [DecidableEq K] [Inhabited V] (cm : ConcurrentMap K V) (k : K)
    (fn : V → Bool → V × Bool) : ConcurrentMap K V :=
  let idx := cm.bucketIndexForKey k
  let b := cm.buckets.getD idx []
  let old := mapGet b k
  let r := fn (old.getD default) old.isSome
  if r.2 then ⟨cm.buckets.set idx (mapSet b k r.1), cm.hasher⟩
  else ⟨cm.buckets.set idx (mapDel b k), cm.hasher⟩

/-- One bucket's slice of `Range`: call `f` on each entry in order, stopping
the whole iteration when `f` answers `false`.  The state `σ` threads the
side effects of the Go closure. -/
def rangeBucket {σ : Type} (f : σ → K × V → σ × Bool) :
    List (K × V) → σ → σ × Bool
  | [], acc => (acc, true)
  | p :: rest, acc =>
    let r := f acc p
    if r.2 then rangeBucket f rest r.1 else (r.1, false)

/-- The bucket loop of `Range`. -/
def rangeBuckets {σ : Type} (f : σ → K × V → σ × Bool) :
    List (List (K × V)) → σ → σ
  | [], acc => acc
  | b :: rest, acc =>
    let r := rangeBucket f b acc
    if r.2 then rangeBuckets f rest r.1 else r.1

/-- `Range`: visit buckets in index order, entries in bucket order; early
termination when the visitor answers `false`. -/
def ConcurrentMap.Range {σ : Type} (cm : ConcurrentMap K V)
    (f : σ → K × V → σ × Bool) (init : σ) : σ :=
  rangeBuckets f cm.buckets init

/-- `NewStringMap`: string keys with the built-in hasher. -/
def ConcurrentMap.NewStringMap (V : Type) (n : Nat) : ConcurrentMap String V :=
  ConcurrentMap.New n fnv64a

/-- `CounterMap`: a `ConcurrentMap` specialised to `int64` values (embedded
as `Int` with explicit two's-complement wraparound on increment). -/
structure CounterMap (K : Type) where
  m : ConcurrentMap K Int

/-- `NewCounterMap`. -/
def CounterMap.NewCounterMap (n : Nat) (hasher : K → Nat) : CounterMap K :=
  ⟨ConcurrentMap.New n hasher⟩

/-- `NewStringCounterMap`: string keys, built-in hasher. -/
def CounterMap.NewStringCounterMap (n : Nat) : CounterMap String :=
  ⟨ConcurrentMap.New n fnv64a⟩

/-- The closure `Inc` passes to `Compute`: a missing key becomes `delta`, an
existing one becomes `old + delta` (`int64` wraparound); `keep` is always
`true`. -/
def incFn (delta : Int) (old : Int) (ex : Bool) : Int × Bool :=
  if !ex then (delta, true) else (int64add old delta, true)

/-- `Inc`: atomically increment via `Compute`, returning the new value (the
`result` the Go closure writes equals the value it stores in both
branches). -/
def CounterMap.Inc [DecidableEq K] (cm : CounterMap K) (k : K) (delta : Int) :
    Int × CounterMap K :=
  let result := match cm.m.find k with
    | none => delta
    | some old => int64add old delta
  (result, ⟨cm.m.Compute k (incFn delta)⟩)

/-- `CounterMap.Get`: delegates to the underlying map. -/
def CounterMap.Get [DecidableEq K] (cm : CounterMap K) (k : K) : Int × Bool :=
  cm.m.Get k

/-- `StoredValue` (kv-server): payload bytes, TTL flag, deadline.  Time is
embedded as `Int` (seconds); the Go zero `time.Time` is `0`. -/
structure StoredValue (P : Type) where
  Data : P
  HasTTL : Bool
  ExpiresAt : Int
  deriving DecidableEq

instance {P : Type} [Inhabited P] : Inhabited (StoredValue P) := ⟨⟨default, false, 0⟩⟩

/-- The record `handlePutJSON` builds in its successful JSON branch: the
zero `StoredValue` with `Data` set, and — only when `req.TTLSeconds > 0` —
`HasTTL = true` and `ExpiresAt = now + TTLSeconds`. -/
def mkStored {P : Type} (now : Int) (value : P) (ttlSeconds : Int) : StoredValue P :=
  if ttlSeconds > 0 then ⟨value, true, now + ttlSeconds⟩ else ⟨value, false, 0⟩

/-- `handlePutJSON` (successful JSON-parse branch with non-empty value):
build the record and `Set` it. -/
def handlePutJSON [DecidableEq K] {P : Type} (now : Int)
    (store : ConcurrentMap K (StoredValue P)) (k : K) (value : P) (ttlSeconds : Int) :
    ConcurrentMap K (StoredValue P) :=
  store.Set k (mkStored now value ttlSeconds)

/-- Whether the lazy-expiry check of `handleGetJSON` (and the sweep's
filter) fires: `value.HasTTL && now.After(value.ExpiresAt)`. -/
def expiredAt {P : Type} (now : Int) (v : StoredValue P) : Bool :=
  v.HasTTL && decide (v.ExpiresAt < now)

/-- `handleGetJSON`: underlying `Get`; a found record past its deadline is
deleted and reported not-found; otherwise the payload (with the deadline
when one exists) is returned.  `none` models the 404 response. -/
def handleGetJSON [DecidableEq K] {P : Type} (now : Int)
    (store : ConcurrentMap K (StoredValue P)) (k : K) :
    Option (P × Option Int) × ConcurrentMap K (StoredValue P) :=
  match store.find k with
  | none => (none, store)
  | some v =>
    if expiredAt now v then (none, store.Delete k)
    else (some (v.Data, if v.HasTTL then some v.ExpiresAt else none), store)

/-- One cycle of `startExpiryWorker`: `Range` collects the keys whose record
is past due (the visitor always continues), then each collected key is
deleted through the normal `Delete` path. -/
def startExpiryWorkerOnce [DecidableEq K] {P : Type} (now : Int)
    (store : ConcurrentMap K (StoredValue P)) : ConcurrentMap K (StoredValue P) :=
  let toDelete := store.Range
    (fun acc p => (if expiredAt now p.2 then acc ++ [p.1] else acc, true)) []
  toDelete.foldl (fun s k => s.Delete k) store

/-- A single-key mutating operation of the map API, used to state frame
properties over interleaved histories. -/
inductive MapOp (K V : Type) where
  | set (k : K) (v : V)
  | del (k : K)
  | loadOrStore (k : K) (v : V)
  | compute (k : K) (fn : V → Bool → V × Bool)

/-- The key a `MapOp` touches. -/
def MapOp.key : MapOp K V → K
  | .set k _ => k
  | .del k => k
  | .loadOrStore k _ => k
  | .compute k _ => k

/-- Run one operation. -/
def ConcurrentMap.applyOp [DecidableEq K] [Inhabited V] (cm : ConcurrentMap K V) :
    MapOp K V → ConcurrentMap K V
  | .set k v => cm.Set k v
  | .del k => cm.Delete k
  | .loadOrStore k v => (cm.LoadOrStore k v).2
  | .compute k fn => cm.Compute k fn

/-- Run a sequential history of operations. -/
def ConcurrentMap.applyOps [DecidableEq K] [Inhabited V] (cm : ConcurrentMap K V)
    (ops : List (MapOp K V)) : ConcurrentMap K V :=
  ops.foldl ConcurrentMap.applyOp cm

/-- Well-formedness: at least one bucket, no bucket holds a key twice, and
every entry sits in the bucket its key routes to.  `New` establishes it and
every operation preserves it; it is the reachable-state invariant of the Go
map, where each `map[K]V` has unique keys and entries never move between
shards. -/
def ConcurrentMap.WF [DecidableEq K] (cm : ConcurrentMap K V) : Prop :=
  0 < cm.buckets.length ∧
  ∀ i < cm.buckets.length,
    ((cm.buckets.getD i []).map Prod.fst).Nodup ∧
    ∀ p ∈ cm.buckets.getD i [], cm.bucketIndexForKey p.1 = i

/-! ### List-indexing helper lemmas -/

theorem getD_set_self {α : Type} (l : List α) (i : Nat) (x d : α) (h : i < l.length) :
    (l.set i x).getD i d = x := by
  induction l generalizing i with
  | nil => simp at h
  | cons a t ih =>
    cases i with
    | zero => rfl
    | succ j => simpa using ih j (by simpa using h)

theorem getD_set_ne {α : Type} (l : List α) (i j : Nat) (x d : α) (h : i ≠ j) :
    (l.set i x).getD j d = l.getD j d := by
  induction l generalizing i j with
  | nil => rfl
  | cons a t ih =>
    cases i with
    | zero =>
      cases j with
      | zero => exact absurd rfl h
      | succ j' => rfl
    | succ i' =>
      cases j with
      | zero => rfl
      | succ j' => simpa using ih i' j' (fun hc => h (by rw [hc]))

theorem getD_replicate_nil {α : Type} (n i : Nat) :
    (List.replicate n ([] : List α)).getD i [] = [] := by
  induction n generalizing i with
  | zero => cases i <;> rfl
  | succ m ih =>
    cases i with
    | zero => rfl
    | succ j => simp [List.replicate, ih j]

theorem length_set_list {α : Type} (l : List α) (i : Nat) (x : α) :
    (l.set i x).length = l.length := by
  simp

theorem sum_length_set {α : Type} (l : List (List α)) (i : Nat) (x : List α)
    (h : i < l.length) :
    ((l.set i x).map List.length).sum + (l.getD i []).length
      = (l.map List.length).sum + x.length := by
  induction l generalizing i with
  | nil => simp at h
  | cons a t ih =>
    cases i with
    | zero => simp [List.getD]; omega
    | succ j =>
      have hj : j < t.length := by simpa using h
      have := ih j hj
      simp only [List.set, List.map, List.sum_cons, List.getD_cons_succ]
      omega

theorem foldl_add_length {α : Type} (l : List (List α)) (n : Nat) :
    l.foldl (fun total b => total + b.length) n = n + (l.map List.length).sum := by
  induction l generalizing n with
  | nil => simp
  | cons a t ih => simp [List.foldl, ih]; omega

/-! ### Association-list lemmas (one bucket's `map[K]V`) -/

variable [DecidableEq K]

theorem mapGet_mapSet_self (b : List (K × V)) (k : K) (v : V) :
    mapGet (mapSet b k v) k = some v := by
  induction b with
  | nil => simp [mapSet, mapGet]
  | cons p rest ih =>
    by_cases h : p.1 = k
    · simp [mapSet, mapGet, h]
    · simp [mapSet, mapGet, h, ih]

theorem mapGet_mapSet_ne (b : List (K × V)) (k k' : K) (v : V) (h : k' ≠ k) :
    mapGet (mapSet b k v) k' = mapGet b k' := by
  induction b with
  | nil => simp [mapSet, mapGet, Ne.symm h]
  | cons p rest ih =>
    by_cases hp : p.1 = k
    · simp [mapSet, mapGet, hp, Ne.symm h]
    · simp [mapSet, mapGet, hp, ih]

theorem mapGet_eq_none_of_not_mem (b : List (K × V)) (k : K)
    (h : k ∉ b.map Prod.fst) : mapGet b k = none := by
  induction b with
  | nil => rfl
  | cons p rest ih =>
    simp only [List.map, List.mem_cons] at h
    push_neg at h
    simp [mapGet, Ne.symm h.1, ih h.2]

theorem mem_keys_of_mapGet_some (b : List (K × V)) (k : K) (v : V)
    (h : mapGet b k = some v) : k ∈ b.map Prod.fst := by
  induction b with
  | nil => simp [mapGet] at h
  | cons p rest ih =>
    by_cases hp : p.1 = k
    · simp [hp]
    · simp only [mapGet, hp, if_false] at h
      simp [ih h]

theorem mem_of_mapGet_some (b : List (K × V)) (k : K) (v : V)
    (h : mapGet b k = some v) : (k, v) ∈ b := by
  induction b with
  | nil => simp [mapGet] at h
  | cons p rest ih =>
    by_cases hp : p.1 = k
    · simp only [mapGet, hp, if_true, Option.some.injEq] at h
      have hpv : p = (k, v) := Prod.ext hp h
      rw [hpv]
      exact List.mem_cons_self _ _
    · simp only [mapGet, hp, if_false] at h
      exact List.mem_cons_of_mem _ (ih h)

theorem mapGet_some_of_mem_nodup (b : List (K × V)) (k : K) (v : V)
    (hnd : (b.map Prod.fst).Nodup) (h : (k, v) ∈ b) : mapGet b k = some v := by
  induction b with
  | nil => simp at h
  | cons p rest ih =>
    simp only [List.map, List.nodup_cons] at hnd
    rcases List.mem_cons.mp h with h1 | h1
    · subst h1
      simp [mapGet]
    · have hne : p.1 ≠ k := by
        intro hc
        exact hnd.1 (hc ▸ (List.mem_map.mpr ⟨(k, v), h1, rfl⟩))
      simp [mapGet, hne, ih hnd.2 h1]

theorem mapGet_mapDel_self (b : List (K × V)) (k : K)
    (hnd : (b.map Prod.fst).Nodup) : mapGet (mapDel b k) k = none := by
  induction b with
  | nil => rfl
  | cons p rest ih =>
    simp only [List.map, List.nodup_cons] at hnd
    by_cases hp : p.1 = k
    · simp only [mapDel, hp, if_true]
      exact mapGet_eq_none_of_not_mem rest k (hp ▸ hnd.1)
    · simp [mapDel, mapGet, hp, ih hnd.2]

theorem mapGet_mapDel_ne (b : List (K × V)) (k k' : K) (h : k' ≠ k) :
    mapGet (mapDel b k) k' = mapGet b k' := by
  induction b with
  | nil => rfl
  | cons p rest ih =>
    by_cases hp : p.1 = k
    · simp [mapDel, mapGet, hp, Ne.symm h]
    · simp [mapDel, mapGet, hp, ih]

theorem mapDel_of_not_mem (b : List (K × V)) (k : K)
    (h : k ∉ b.map Prod.fst) : mapDel b k = b := by
  induction b with
  | nil => rfl
  | cons p rest ih =>
    simp only [List.map, List.mem_cons] at h
    push_neg at h
    simp [mapDel, Ne.symm h.1, ih h.2]

theorem length_mapSet_absent (b : List (K × V)) (k : K) (v : V)
    (h : mapGet b k = none) : (mapSet b k v).length = b.length + 1 := by
  induction b with
  | nil => rfl
  | cons p rest ih =>
    by_cases hp : p.1 = k
    · simp [mapGet, hp] at h
    · simp only [mapGet, hp, if_false] at h
      simp [mapSet, hp, ih h]

theorem length_mapSet_present (b : List (K × V)) (k : K) (v w : V)
    (h : mapGet b k = some w) : (mapSet b k v).length = b.length := by
  induction b with
  | nil => simp [mapGet] at h
  | cons p rest ih =>
    by_cases hp : p.1 = k
    · simp [mapSet, hp]
    · simp only [mapGet, hp, if_false] at h
      simp [mapSet, hp, ih h]

theorem length_mapDel_present (b : List (K × V)) (k : K) (v : V)
    (h : mapGet b k = some v) : (mapDel b k).length + 1 = b.length := by
  induction b with
  | nil => simp [mapGet] at h
  | cons p rest ih =>
    by_cases hp : p.1 = k
    · simp [mapDel, hp]
    · simp only [mapGet, hp, if_false] at h
      simp [mapDel, hp, ih h]

theorem mem_mapSet (b : List (K × V)) (k : K) (v : V) (p : K × V)
    (h : p ∈ mapSet b k v) : p ∈ b ∨ p = (k, v) := by
  induction b with
  | nil => simpa [mapSet] using h
  | cons q rest ih =>
    by_cases hq : q.1 = k
    · simp only [mapSet, hq, if_true, List.mem_cons] at h
      rcases h with h | h
      · right; exact h
      · left; exact List.mem_cons_of_mem _ h
    · simp only [mapSet, hq, if_false, List.mem_cons] at h
      rcases h with h | h
      · left; simp [h]
      · rcases ih h with h1 | h1
        · left; exact List.mem_cons_of_mem _ h1
        · right; exact h1

theorem mem_mapDel (b : List (K × V)) (k : K) (p : K × V)
    (h : p ∈ mapDel b k) : p ∈ b := by
  induction b with
  | nil => simp [mapDel] at h
  | cons q rest ih =>
    by_cases hq : q.1 = k
    · simp only [mapDel, hq, if_true] at h
      exact List.mem_cons_of_mem _ h
    · simp only [mapDel, hq, if_false, List.mem_cons] at h
      rcases h with h | h
      · simp [h]
      · exact List.mem_cons_of_mem _ (ih h)

theorem mem_keys_mapSet (b : List (K × V)) (k : K) (v : V) (a : K)
    (h : a ∈ (mapSet b k v).map Prod.fst) : a ∈ b.map Prod.fst ∨ a = k := by
  rcases List.mem_map.mp h with ⟨p, hp, hpa⟩
  rcases mem_mapSet b k v p hp with h1 | h1
  · left; exact hpa ▸ List.mem_map.mpr ⟨p, h1, rfl⟩
  · right; rw [← hpa, h1]

theorem nodup_keys_mapSet (b : List (K × V)) (k : K) (v : V)
    (hnd : (b.map Prod.fst).Nodup) : ((mapSet b k v).map Prod.fst).Nodup := by
  induction b with
  | nil => simp [mapSet]
  | cons p rest ih =>
    simp only [List.map, List.nodup_cons] at hnd
    by_cases hp : p.1 = k
    · simp only [mapSet, hp, if_true, List.map, List.nodup_cons]
      exact ⟨hp ▸ hnd.1, hnd.2⟩
    · simp only [mapSet, hp, if_false, List.map, List.nodup_cons]
      refine ⟨fun hc => ?_, ih hnd.2⟩
      rcases mem_keys_mapSet rest k v p.1 hc with h1 | h1
      · exact hnd.1 h1
      · exact hp h1

theorem mapDel_sublist (b : List (K × V)) (k : K) : (mapDel b k).Sublist b := by
  induction b with
  | nil => simp [mapDel]
  | cons p rest ih =>
    by_cases hp : p.1 = k
    · simp only [mapDel, hp, if_true]
      exact List.sublist_cons_of_sublist p (List.Sublist.refl rest)
    · simp only [mapDel, hp, if_false]
      exact List.Sublist.cons₂ p ih

theorem nodup_keys_mapDel (b : List (K × V)) (k : K)
    (hnd : (b.map Prod.fst).Nodup) : ((mapDel b k).map Prod.fst).Nodup :=
  List.Nodup.sublist (List.Sublist.map Prod.fst (mapDel_sublist b k)) hnd

/-! ### Sharded-map lemmas -/

theorem bucketIndex_lt (cm : ConcurrentMap K V) (k : K) (h : 0 < cm.buckets.length) :
    cm.bucketIndexForKey k < cm.buckets.length :=
  Nat.mod_lt _ h

/-- Routing and lookup after replacing the bucket key `k` routes to: a key
in the same shard sees the new bucket, any other key is untouched. -/
theorem find_mk_set (cm : ConcurrentMap K V) (k k' : K) (b' : List (K × V))
    (h : 0 < cm.buckets.length) :
    (ConcurrentMap.mk (cm.buckets.set (cm.bucketIndexForKey k) b') cm.hasher).find k'
      = if cm.bucketIndexForKey k' = cm.bucketIndexForKey k then mapGet b' k'
        else cm.find k' := by
  have hidx : ∀ a,
      (ConcurrentMap.mk (cm.buckets.set (cm.bucketIndexForKey k) b') cm.hasher).bucketIndexForKey a
        = cm.bucketIndexForKey a := by
    intro a
    simp [ConcurrentMap.bucketIndexForKey]
  by_cases hc : cm.bucketIndexForKey k' = cm.bucketIndexForKey k
  · simp only [ConcurrentMap.find, ConcurrentMap.bucketFor, hidx, hc, if_pos]
    rw [getD_set_self _ _ _ _ (bucketIndex_lt cm k h)]
  · simp only [ConcurrentMap.find, ConcurrentMap.bucketFor, hidx, hc, if_neg,
      not_false_iff]
    rw [getD_set_ne _ _ _ _ _ (fun hc' => hc hc'.symm)]

theorem buckets_length_Set (cm : ConcurrentMap K V) (k : K) (v : V) :
    (cm.Set k v).buckets.length = cm.buckets.length := by
  simp [ConcurrentMap.Set]

theorem buckets_length_Delete (cm : ConcurrentMap K V) (k : K) :
    (cm.Delete k).buckets.length = cm.buckets.length := by
  simp [ConcurrentMap.Delete]

theorem buckets_length_LoadOrStore (cm : ConcurrentMap K V) (k : K) (v : V) :
    (cm.LoadOrStore k v).2.buckets.length = cm.buckets.length := by
  unfold ConcurrentMap.LoadOrStore
  dsimp only
  split <;> simp

theorem buckets_length_Compute [Inhabited V] (cm : ConcurrentMap K V) (k : K)
    (fn : V → Bool → V × Bool) :
    (cm.Compute k fn).buckets.length = cm.buckets.length := by
  unfold ConcurrentMap.Compute
  dsimp only
  split <;> simp

theorem hasher_Set (cm : ConcurrentMap K V) (k : K) (v : V) :
    (cm.Set k v).hasher = cm.hasher := rfl

theorem find_Set_self (cm : ConcurrentMap K V) (k : K) (v : V)
    (h : 0 < cm.buckets.length) : (cm.Set k v).find k = some v := by
  unfold ConcurrentMap.Set
  rw [find_mk_set cm k k _ h, if_pos rfl, mapGet_mapSet_self]

theorem find_Set_ne (cm : ConcurrentMap K V) (k k' : K) (v : V)
    (h : 0 < cm.buckets.length) (hne : k' ≠ k) :
    (cm.Set k v).find k' = cm.find k' := by
  unfold ConcurrentMap.Set
  rw [find_mk_set cm k k' _ h]
  by_cases hc : cm.bucketIndexForKey k' = cm.bucketIndexForKey k
  · rw [if_pos hc, mapGet_mapSet_ne _ _ _ _ hne]
    simp [ConcurrentMap.find, ConcurrentMap.bucketFor, hc]
  · rw [if_neg hc]

theorem find_Delete_ne (cm : ConcurrentMap K V) (k k' : K)
    (h : 0 < cm.buckets.length) (hne : k' ≠ k) :
    (cm.Delete k).find k' = cm.find k' := by
  unfold ConcurrentMap.Delete
  rw [find_mk_set cm k k' _ h]
  by_cases hc : cm.bucketIndexForKey k' = cm.bucketIndexForKey k
  · rw [if_pos hc, mapGet_mapDel_ne _ _ _ hne]
    simp [ConcurrentMap.find, ConcurrentMap.bucketFor, hc]
  · rw [if_neg hc]

theorem mapGet_some_of_mem_keys (b : List (K × V)) (k : K)
    (h : k ∈ b.map Prod.fst) : ∃ v, mapGet b k = some v := by
  induction b with
  | nil => simp at h
  | cons p rest ih =>
    by_cases hp : p.1 = k
    · exact ⟨p.2, by simp [mapGet, hp]⟩
    · rcases List.mem_cons.mp h with h1 | h1
      · exact absurd h1.symm hp
      · rcases ih h1 with ⟨v, hv⟩
        exact ⟨v, by simp [mapGet, hp, hv]⟩

theorem set_getD_self {α : Type} (l : List α) (i : Nat) (d : α) (h : i < l.length) :
    l.set i (l.getD i d) = l := by
  induction l generalizing i with
  | nil => simp at h
  | cons a t ih =>
    cases i with
    | zero => rfl
    | succ j => simpa using ih j (by simpa using h)

/-- `Delete` on an absent key is a no-op: the map is left unchanged. -/
theorem Delete_absent (cm : ConcurrentMap K V) (k : K)
    (h : 0 < cm.buckets.length) (habs : cm.find k = none) : cm.Delete k = cm := by
  have hnm : k ∉ (cm.buckets.getD (cm.bucketIndexForKey k) []).map Prod.fst := by
    intro hmem
    rcases mapGet_some_of_mem_keys _ _ hmem with ⟨v, hv⟩
    rw [ConcurrentMap.find, ConcurrentMap.bucketFor] at habs
    rw [habs] at hv
    exact Option.noConfusion hv
  unfold ConcurrentMap.Delete
  dsimp only
  rw [mapDel_of_not_mem _ _ hnm, set_getD_self _ _ _ (bucketIndex_lt cm k h)]

/-- What `Compute` leaves at the key: the value `fn` returned when it kept,
nothing when it dropped (`WF` for the drop case: the bucket holds the key at
most once, so removing it empties the slot). -/
theorem find_Compute_self [Inhabited V] (cm : ConcurrentMap K V) (k : K)
    (fn : V → Bool → V × Bool) (hwf : cm.WF) :
    (cm.Compute k fn).find k
      = (if (fn ((cm.find k).getD default) (cm.find k).isSome).2
          then some (fn ((cm.find k).getD default) (cm.find k).isSome).1
          else none) := by
  obtain ⟨h, hbk⟩ := hwf
  have hnd := (hbk _ (bucketIndex_lt cm k h)).1
  unfold ConcurrentMap.Compute
  dsimp only
  split
  · rw [find_mk_set cm k k _ h, if_pos rfl, mapGet_mapSet_self]
    simp_all [ConcurrentMap.find, ConcurrentMap.bucketFor]
  · rw [find_mk_set cm k k _ h, if_pos rfl, mapGet_mapDel_self _ _ hnd]
    simp_all [ConcurrentMap.find, ConcurrentMap.bucketFor]

theorem find_Compute_ne [Inhabited V] (cm : ConcurrentMap K V) (k k' : K)
    (fn : V → Bool → V × Bool) (h : 0 < cm.buckets.length) (hne : k' ≠ k) :
    (cm.Compute k fn).find k' = cm.find k' := by
  unfold ConcurrentMap.Compute
  dsimp only
  split
  · rw [find_mk_set cm k k' _ h]
    by_cases hc : cm.bucketIndexForKey k' = cm.bucketIndexForKey k
    · rw [if_pos hc, mapGet_mapSet_ne _ _ _ _ hne]
      simp [ConcurrentMap.find, ConcurrentMap.bucketFor, hc]
    · rw [if_neg hc]
  · rw [find_mk_set cm k k' _ h]
    by_cases hc : cm.bucketIndexForKey k' = cm.bucketIndexForKey k
    · rw [if_pos hc, mapGet_mapDel_ne _ _ _ hne]
      simp [ConcurrentMap.find, ConcurrentMap.bucketFor, hc]
    · rw [if_neg hc]

/-- `LoadOrStore` on a present key: returns the existing value with
`loaded = true` and leaves the map unchanged. -/
theorem LoadOrStore_present (cm : ConcurrentMap K V) (k : K) (v w : V)
    (hp : cm.find k = some w) : cm.LoadOrStore k v = ((w, true), cm) := by
  unfold ConcurrentMap.LoadOrStore
  dsimp only
  rw [ConcurrentMap.find, ConcurrentMap.bucketFor] at hp
  rw [hp]

/-- `LoadOrStore` on an absent key: returns `(v, false)` and inserts `v`. -/
theorem LoadOrStore_absent (cm : ConcurrentMap K V) (k : K) (v : V)
    (h : 0 < cm.buckets.length) (habs : cm.find k = none) :
    (cm.LoadOrStore k v).1 = (v, false) ∧ (cm.LoadOrStore k v).2.find k = some v := by
  unfold ConcurrentMap.LoadOrStore
  dsimp only
  rw [ConcurrentMap.find, ConcurrentMap.bucketFor] at habs
  rw [habs]
  refine ⟨rfl, ?_⟩
  show (ConcurrentMap.mk _ _).find k = some v
  rw [find_mk_set cm k k _ h, if_pos rfl, mapGet_mapSet_self]

theorem find_LoadOrStore_ne (cm : ConcurrentMap K V) (k k' : K) (v : V)
    (h : 0 < cm.buckets.length) (hne : k' ≠ k) :
    (cm.LoadOrStore k v).2.find k' = cm.find k' := by
  unfold ConcurrentMap.LoadOrStore
  dsimp only
  split
  · rfl
  · show (ConcurrentMap.mk _ _).find k' = cm.find k'
    rw [find_mk_set cm k k' _ h]
    by_cases hc : cm.bucketIndexForKey k' = cm.bucketIndexForKey k
    · rw [if_pos hc, mapGet_mapSet_ne _ _ _ _ hne]
      simp [ConcurrentMap.find, ConcurrentMap.bucketFor, hc]
    · rw [if_neg hc]

/-! ### Well-formedness: establishment and preservation -/

theorem WF_New (n : Nat) (hasher : K → Nat) (hn : 0 < n) :
    (ConcurrentMap.New (V := V) n hasher).WF := by
  refine ⟨by simpa [ConcurrentMap.New] using hn, ?_⟩
  intro i hi
  constructor
  · rw [ConcurrentMap.New]
    simp only
    rw [getD_replicate_nil]
    exact List.nodup_nil
  · intro p hp
    rw [ConcurrentMap.New] at hp
    simp only at hp
    rw [getD_replicate_nil] at hp
    simp at hp

/-- Replacing the bucket key `k` routes to preserves `WF`, provided the new
bucket has nodup keys and only holds entries routed to that shard. -/
theorem WF_mk_set (cm : ConcurrentMap K V) (k : K) (b' : List (K × V)) (hwf : cm.WF)
    (hnd : (b'.map Prod.fst).Nodup)
    (hhome : ∀ p ∈ b', cm.bucketIndexForKey p.1 = cm.bucketIndexForKey k) :
    (ConcurrentMap.mk (cm.buckets.set (cm.bucketIndexForKey k) b') cm.hasher).WF := by
  obtain ⟨h, hbk⟩ := hwf
  have hidx : ∀ a,
      (ConcurrentMap.mk (cm.buckets.set (cm.bucketIndexForKey k) b') cm.hasher).bucketIndexForKey a
        = cm.bucketIndexForKey a := by
    intro a
    simp [ConcurrentMap.bucketIndexForKey]
  refine ⟨by simpa using h, ?_⟩
  intro i hi
  rw [List.length_set] at hi
  by_cases hc : i = cm.bucketIndexForKey k
  · subst hc
    constructor
    · simp only
      rw [getD_set_self _ _ _ _ (bucketIndex_lt cm k h)]
      exact hnd
    · intro p hp
      simp only at hp
      rw [getD_set_self _ _ _ _ (bucketIndex_lt cm k h)] at hp
      rw [hidx]
      exact hhome p hp
  · constructor
    · simp only
      rw [getD_set_ne _ _ _ _ _ (fun hc' => hc hc'.symm)]
      exact (hbk i hi).1
    · intro p hp
      simp only at hp
      rw [getD_set_ne _ _ _ _ _ (fun hc' => hc hc'.symm)] at hp
      rw [hidx]
      exact (hbk i hi).2 p hp

theorem WF_Set (cm : ConcurrentMap K V) (k : K) (v : V) (hwf : cm.WF) :
    (cm.Set k v).WF := by
  obtain ⟨h, hbk⟩ := hwf
  have hi := bucketIndex_lt cm k h
  refine WF_mk_set cm k _ ⟨h, hbk⟩ (nodup_keys_mapSet _ _ _ ((hbk _ hi).1)) ?_
  intro p hp
  rcases mem_mapSet _ _ _ _ hp with h1 | h1
  · exact (hbk _ hi).2 p h1
  · rw [h1]

theorem WF_Delete (cm : ConcurrentMap K V) (k : K) (hwf : cm.WF) :
    (cm.Delete k).WF := by
  obtain ⟨h, hbk⟩ := hwf
  have hi := bucketIndex_lt cm k h
  refine WF_mk_set cm k _ ⟨h, hbk⟩ (nodup_keys_mapDel _ _ ((hbk _ hi).1)) ?_
  intro p hp
  exact (hbk _ hi).2 p (mem_mapDel _ _ _ hp)

theorem WF_Compute [Inhabited V] (cm : ConcurrentMap K V) (k : K)
    (fn : V → Bool → V × Bool) (hwf : cm.WF) : (cm.Compute k fn).WF := by
  obtain ⟨h, hbk⟩ := hwf
  have hi := bucketIndex_lt cm k h
  unfold ConcurrentMap.Compute
  dsimp only
  split
  · refine WF_mk_set cm k _ ⟨h, hbk⟩ (nodup_keys_mapSet _ _ _ ((hbk _ hi).1)) ?_
    intro p hp
    rcases mem_mapSet _ _ _ _ hp with h1 | h1
    · exact (hbk _ hi).2 p h1
    · rw [h1]
  · refine WF_mk_set cm k _ ⟨h, hbk⟩ (nodup_keys_mapDel _ _ ((hbk _ hi).1)) ?_
    intro p hp
    exact (hbk _ hi).2 p (mem_mapDel _ _ _ hp)

theorem WF_LoadOrStore (cm : ConcurrentMap K V) (k : K) (v : V) (hwf : cm.WF) :
    (cm.LoadOrStore k v).2.WF := by
  obtain ⟨h, hbk⟩ := hwf
  have hi := bucketIndex_lt cm k h
  unfold ConcurrentMap.LoadOrStore
  dsimp only
  split
  · exact ⟨h, hbk⟩
  · refine WF_mk_set cm k _ ⟨h, hbk⟩ (nodup_keys_mapSet _ _ _ ((hbk _ hi).1)) ?_
    intro p hp
    rcases mem_mapSet _ _ _ _ hp with h1 | h1
    · exact (hbk _ hi).2 p h1
    · rw [h1]

/-! ### Length lemmas -/

theorem Len_eq_sum (cm : ConcurrentMap K V) :
    cm.Len = (cm.buckets.map List.length).sum := by
  rw [ConcurrentMap.Len, foldl_add_length]
  omega

theorem Len_mk_set (cm : ConcurrentMap K V) (k : K) (b' : List (K × V))
    (h : 0 < cm.buckets.length) :
    (ConcurrentMap.mk (cm.buckets.set (cm.bucketIndexForKey k) b') cm.hasher).Len
        + (cm.buckets.getD (cm.bucketIndexForKey k) []).length
      = cm.Len + b'.length := by
  rw [Len_eq_sum, Len_eq_sum]
  exact sum_length_set _ _ _ (bucketIndex_lt cm k h)

theorem Len_Set_absent (cm : ConcurrentMap K V) (k : K) (v : V)
    (h : 0 < cm.buckets.length) (habs : cm.find k = none) :
    (cm.Set k v).Len = cm.Len + 1 := by
  rw [ConcurrentMap.find, ConcurrentMap.bucketFor] at habs
  have := Len_mk_set cm k (mapSet (cm.buckets.getD (cm.bucketIndexForKey k) []) k v) h
  rw [length_mapSet_absent _ _ _ habs] at this
  rw [ConcurrentMap.Set]
  omega

theorem Len_Set_present (cm : ConcurrentMap K V) (k : K) (v w : V)
    (h : 0 < cm.buckets.length) (hp : cm.find k = some w) :
    (cm.Set k v).Len = cm.Len := by
  rw [ConcurrentMap.find, ConcurrentMap.bucketFor] at hp
  have := Len_mk_set cm k (mapSet (cm.buckets.getD (cm.bucketIndexForKey k) []) k v) h
  rw [length_mapSet_present _ _ _ _ hp] at this
  rw [ConcurrentMap.Set]
  omega

theorem Len_Delete_present (cm : ConcurrentMap K V) (k : K) (w : V)
    (h : 0 < cm.buckets.length) (hp : cm.find k = some w) :
    (cm.Delete k).Len + 1 = cm.Len := by
  rw [ConcurrentMap.find, ConcurrentMap.bucketFor] at hp
  have := Len_mk_set cm k (mapDel (cm.buckets.getD (cm.bucketIndexForKey k) []) k) h
  have hlen := length_mapDel_present _ _ _ hp
  rw [ConcurrentMap.Delete]
  omega

theorem Len_New (n : Nat) (hasher : K → Nat) :
    (ConcurrentMap.New (V := V) n hasher).Len = 0 := by
  rw [Len_eq_sum]
  induction n with
  | zero => rfl
  | succ m ih => simp [ConcurrentMap.New, List.replicate] at ih ⊢

theorem find_Delete_self (cm : ConcurrentMap K V) (k : K) (hwf : cm.WF) :
    (cm.Delete k).find k = none := by
  obtain ⟨h, hbk⟩ := hwf
  have hnd := (hbk _ (bucketIndex_lt cm k h)).1
  unfold ConcurrentMap.Delete
  dsimp only
  rw [find_mk_set cm k k _ h, if_pos rfl, mapGet_mapDel_self _ _ hnd]

theorem find_New (n : Nat) (hasher : K → Nat) (k : K) :
    (ConcurrentMap.New (V := V) n hasher).find k = none := by
  rw [ConcurrentMap.find, ConcurrentMap.bucketFor, ConcurrentMap.New]
  simp only
  rw [getD_replicate_nil]
  rfl

instance (cm : ConcurrentMap K V) : Decidable cm.WF :=
  decidable_of_iff
    (0 < cm.buckets.length ∧
      ∀ i < cm.buckets.length,
        ((cm.buckets.getD i []).map Prod.fst).Nodup ∧
        ∀ p ∈ cm.buckets.getD i [], cm.bucketIndexForKey p.1 = i)
    Iff.rfl

/-! ### Histories of single-key operations -/

theorem buckets_length_applyOp [Inhabited V] (cm : ConcurrentMap K V) (op : MapOp K V) :
    (cm.applyOp op).buckets.length = cm.buckets.length := by
  cases op with
  | set k v => exact buckets_length_Set cm k v
  | del k => exact buckets_length_Delete cm k
  | loadOrStore k v => exact buckets_length_LoadOrStore cm k v
  | compute k fn => exact buckets_length_Compute cm k fn

theorem buckets_length_applyOps [Inhabited V] (cm : ConcurrentMap K V)
    (ops : List (MapOp K V)) :
    (cm.applyOps ops).buckets.length = cm.buckets.length := by
  induction ops generalizing cm with
  | nil => rfl
  | cons op rest ih =>
    rw [ConcurrentMap.applyOps, List.foldl_cons]
    rw [show rest.foldl ConcurrentMap.applyOp (cm.applyOp op) = (cm.applyOp op).applyOps rest
      from rfl]
    rw [ih, buckets_length_applyOp]

theorem find_applyOp_ne [Inhabited V] (cm : ConcurrentMap K V) (op : MapOp K V) (k : K)
    (h : 0 < cm.buckets.length) (hne : op.key ≠ k) :
    (cm.applyOp op).find k = cm.find k := by
  cases op with
  | set k' v => exact find_Set_ne cm k' k v h (Ne.symm hne)
  | del k' => exact find_Delete_ne cm k' k h (Ne.symm hne)
  | loadOrStore k' v => exact find_LoadOrStore_ne cm k' k v h (Ne.symm hne)
  | compute k' fn => exact find_Compute_ne cm k' k fn h (Ne.symm hne)

theorem find_applyOps_ne [Inhabited V] (cm : ConcurrentMap K V) (ops : List (MapOp K V))
    (k : K) (h : 0 < cm.buckets.length) (hne : ∀ op ∈ ops, op.key ≠ k) :
    (cm.applyOps ops).find k = cm.find k := by
  induction ops generalizing cm with
  | nil => rfl
  | cons op rest ih =>
    rw [ConcurrentMap.applyOps, List.foldl_cons]
    rw [show rest.foldl ConcurrentMap.applyOp (cm.applyOp op) = (cm.applyOp op).applyOps rest
      from rfl]
    rw [ih _ (by rw [buckets_length_applyOp]; exact h)
        (fun o ho => hne o (List.mem_cons_of_mem _ ho)),
      find_applyOp_ne cm op k h (hne op (List.mem_cons_self _ _))]

theorem WF_applyOp [Inhabited V] (cm : ConcurrentMap K V) (op : MapOp K V)
    (hwf : cm.WF) : (cm.applyOp op).WF := by
  cases op with
  | set k v => exact WF_Set cm k v hwf
  | del k => exact WF_Delete cm k hwf
  | loadOrStore k v => exact WF_LoadOrStore cm k v hwf
  | compute k fn => exact WF_Compute cm k fn hwf

theorem WF_applyOps [Inhabited V] (cm : ConcurrentMap K V) (ops : List (MapOp K V))
    (hwf : cm.WF) : (cm.applyOps ops).WF := by
  induction ops generalizing cm with
  | nil => exact hwf
  | cons op rest ih =>
    rw [ConcurrentMap.applyOps, List.foldl_cons]
    exact ih _ (WF_applyOp cm op hwf)

theorem buckets_length_foldlSet (cm : ConcurrentMap K V) (kvs : List (K × V)) :
    (kvs.foldl (fun m p => m.Set p.1 p.2) cm).buckets.length = cm.buckets.length := by
  induction kvs generalizing cm with
  | nil => rfl
  | cons p rest ih =>
    rw [List.foldl_cons, ih, buckets_length_Set]

/-! ### Folded `Set` lemmas (for `Len` after N distinct inserts) -/

theorem find_foldlSet_isSome (cm : ConcurrentMap K V) (kvs : List (K × V)) (k : K)
    (h : 0 < cm.buckets.length) (hs : (cm.find k).isSome) :
    ((kvs.foldl (fun m p => m.Set p.1 p.2) cm).find k).isSome := by
  induction kvs generalizing cm with
  | nil => exact hs
  | cons p rest ih =>
    rw [List.foldl_cons]
    refine ih _ (by rw [buckets_length_Set]; exact h) ?_
    by_cases hc : k = p.1
    · subst hc
      rw [find_Set_self _ _ _ h]
      rfl
    · rw [find_Set_ne _ _ _ _ h hc]
      exact hs

theorem find_foldlSet_mem (cm : ConcurrentMap K V) (kvs : List (K × V)) (k : K)
    (h : 0 < cm.buckets.length) (hk : k ∈ kvs.map Prod.fst) :
    ((kvs.foldl (fun m p => m.Set p.1 p.2) cm).find k).isSome := by
  induction kvs generalizing cm with
  | nil => simp at hk
  | cons p rest ih =>
    rw [List.foldl_cons]
    by_cases hc : k ∈ rest.map Prod.fst
    · exact ih _ (by rw [buckets_length_Set]; exact h) hc
    · have hkp : k = p.1 := by
        rcases List.mem_cons.mp hk with h1 | h1
        · exact h1
        · exact absurd h1 hc
      subst hkp
      refine find_foldlSet_isSome _ _ _ (by rw [buckets_length_Set]; exact h) ?_
      rw [find_Set_self _ _ _ h]
      rfl

theorem Len_foldlSet (cm : ConcurrentMap K V) (kvs : List (K × V))
    (h : 0 < cm.buckets.length) (hnd : (kvs.map Prod.fst).Nodup)
    (habs : ∀ p ∈ kvs, cm.find p.1 = none) :
    (kvs.foldl (fun m p => m.Set p.1 p.2) cm).Len = cm.Len + kvs.length := by
  induction kvs generalizing cm with
  | nil => rfl
  | cons p rest ih =>
    rw [List.foldl_cons]
    simp only [List.map, List.nodup_cons] at hnd
    have hstep := Len_Set_absent cm p.1 p.2 h (habs p (List.mem_cons_self _ _))
    have habs' : ∀ q ∈ rest, (cm.Set p.1 p.2).find q.1 = none := by
      intro q hq
      have hqk : q.1 ≠ p.1 := by
        intro hc
        exact hnd.1 (hc ▸ List.mem_map.mpr ⟨q, hq, rfl⟩)
      rw [find_Set_ne _ _ _ _ h hqk]
      exact habs q (List.mem_cons_of_mem _ hq)
    rw [ih _ (by rw [buckets_length_Set]; exact h) hnd.2 habs', hstep]
    simp
    omega

/-! ### `Range` as a collector, and the two-phase sweep -/

theorem rangeBucket_collect (pred : K → V → Bool) (b : List (K × V)) (acc : List K) :
    rangeBucket (fun acc p => (if pred p.1 p.2 then acc ++ [p.1] else acc, true)) b acc
      = (acc ++ (b.filter (fun p => pred p.1 p.2)).map Prod.fst, true) := by
  induction b generalizing acc with
  | nil => simp [rangeBucket]
  | cons p rest ih =>
    by_cases hp : pred p.1 p.2
    · simp [rangeBucket, hp, ih]
    · simp [rangeBucket, hp, ih]

theorem rangeBuckets_collect (pred : K → V → Bool) (bs : List (List (K × V)))
    (acc : List K) :
    rangeBuckets (fun acc p => (if pred p.1 p.2 then acc ++ [p.1] else acc, true)) bs acc
      = acc ++ (bs.map (fun b => (b.filter (fun p => pred p.1 p.2)).map Prod.fst)).flatten := by
  induction bs generalizing acc with
  | nil => simp [rangeBuckets]
  | cons b rest ih =>
    rw [rangeBuckets, rangeBucket_collect]
    simp [ih]

theorem mem_range_collect (pred : K → V → Bool) (cm : ConcurrentMap K V) (k : K) :
    (k ∈ cm.Range (fun acc p => (if pred p.1 p.2 then acc ++ [p.1] else acc, true)) [])
      ↔ ∃ b ∈ cm.buckets, ∃ v, (k, v) ∈ b ∧ pred k v := by
  rw [ConcurrentMap.Range, rangeBuckets_collect]
  simp only [List.nil_append, List.mem_flatten, List.mem_map]
  constructor
  · rintro ⟨l, ⟨b, hb, rfl⟩, hkl⟩
    rcases List.mem_map.mp hkl with ⟨p, hp, hpk⟩
    rcases List.mem_filter.mp hp with ⟨hpb, hpred⟩
    refine ⟨b, hb, p.2, ?_, ?_⟩
    · rw [← hpk]
      exact hpb
    · rw [← hpk]
      exact hpred
  · rintro ⟨b, hb, v, hkv, hpred⟩
    refine ⟨(b.filter (fun p => pred p.1 p.2)).map Prod.fst, ⟨b, hb, rfl⟩, ?_⟩
    exact List.mem_map.mpr ⟨(k, v), List.mem_filter.mpr ⟨hkv, hpred⟩, rfl⟩

theorem getD_eq_getElem {α : Type} (l : List α) (i : Nat) (d : α) (h : i < l.length) :
    l.getD i d = l[i] := by
  induction l generalizing i with
  | nil => simp at h
  | cons a t ih =>
    cases i with
    | zero => rfl
    | succ j => simpa using ih j (by simpa using h)

/-- Under `WF`, a key is collected by the sweep's `Range` pass exactly when
its (unique) record is past due. -/
theorem mem_collect_iff_expired {P : Type} (now : Int)
    (cm : ConcurrentMap K (StoredValue P)) (hwf : cm.WF) (k : K) :
    (k ∈ cm.Range (fun acc p => (if expiredAt now p.2 then acc ++ [p.1] else acc, true)) [])
      ↔ ∃ v, cm.find k = some v ∧ expiredAt now v := by
  obtain ⟨h, hbk⟩ := hwf
  rw [mem_range_collect (fun a v => expiredAt now v) cm k]
  constructor
  · rintro ⟨b, hb, v, hkv, hpred⟩
    rcases List.mem_iff_getElem.mp hb with ⟨i, hi, rfl⟩
    have hhome := (hbk i hi).2 (k, v) (by rw [getD_eq_getElem _ _ _ hi]; exact hkv)
    have hnd := (hbk i hi).1
    refine ⟨v, ?_, hpred⟩
    rw [ConcurrentMap.find, ConcurrentMap.bucketFor, hhome]
    rw [getD_eq_getElem _ _ _ hi] at hnd ⊢
    exact mapGet_some_of_mem_nodup _ _ _ hnd hkv
  · rintro ⟨v, hv, hpred⟩
    refine ⟨cm.bucketFor k, ?_, v, mem_of_mapGet_some _ _ _ hv, hpred⟩
    rw [ConcurrentMap.bucketFor, getD_eq_getElem _ _ _ (bucketIndex_lt cm k h)]
    exact List.getElem_mem _

theorem find_foldlDelete (cm : ConcurrentMap K V) (l : List K) (k : K) (hwf : cm.WF) :
    ((l.foldl (fun s k' => s.Delete k') cm).find k)
      = if k ∈ l then none else cm.find k := by
  induction l generalizing cm with
  | nil => simp
  | cons k' rest ih =>
    rw [List.foldl_cons, ih _ (WF_Delete cm k' hwf)]
    by_cases hc : k = k'
    · subst hc
      rw [find_Delete_self cm k hwf]
      simp
    · by_cases hr : k ∈ rest
      · simp [hr]
      · rw [if_neg hr, find_Delete_ne cm k' k hwf.1 hc]
        simp [hc, hr]

/-- What one sweep cycle leaves at each key: a past-due record is removed,
everything else is untouched. -/
theorem sweep_find {P : Type} (now : Int) (store : ConcurrentMap K (StoredValue P))
    (hwf : store.WF) (k : K) :
    (startExpiryWorkerOnce now store).find k
      = (store.find k).bind (fun v => if expiredAt now v then none else some v) := by
  unfold startExpiryWorkerOnce
  dsimp only
  rw [find_foldlDelete _ _ _ hwf]
  by_cases hc : k ∈ store.Range
      (fun acc p => (if expiredAt now p.2 then acc ++ [p.1] else acc, true)) []
  · rcases (mem_collect_iff_expired now store hwf k).mp hc with ⟨v, hv, hpred⟩
    rw [if_pos hc, hv]
    simp [hpred]
  · rw [if_neg hc]
    cases hfind : store.find k with
    | none => rfl
    | some v =>
      have : ¬ expiredAt now v := by
        intro hpred
        exact hc ((mem_collect_iff_expired now store hwf k).mpr ⟨v, hfind, hpred⟩)
      simp [this]

/-! ## Claim theorems -/

/-- C1 (code bug): the string hasher does NOT implement FNV-1a exactly.  Its
per-byte loop (xor with the byte, multiply by the FNV prime `1099511628211`
mod `2^64`) matches FNV-1a, but its accumulator starts from
`1469598103934665603` — the standard 64-bit FNV offset basis
`14695981039346656037` with the final digit dropped — so the digest differs
from true FNV-1a already on the empty string (and on `"a"`). -/
theorem fnv64a_not_fnv1a :
    fnv64a "" = 1469598103934665603
      ∧ fnv1aRef "" = 14695981039346656037
      ∧ fnv64a "" ≠ fnv1aRef ""
      ∧ fnv64a "a" ≠ fnv1aRef "a" := by
  refine ⟨rfl, rfl, by decide, by decide⟩

/-- C2: after `Set k v`, `Get k` returns `(v, true)` and keeps doing so
across any interleaved operations on other keys, until the next `Set k _`
(whose overwrite is unconditional) or `Delete k` (after which `Get k` is
`(default, false)`). -/
theorem set_get_until_next_mutation [Inhabited V] (cm : ConcurrentMap K V) (k : K)
    (v w : V) (ops : List (MapOp K V)) (hwf : cm.WF) (hops : ∀ op ∈ ops, op.key ≠ k) :
    ((cm.Set k v).applyOps ops).Get k = (v, true)
      ∧ (((cm.Set k v).applyOps ops).Set k w).Get k = (w, true)
      ∧ (((cm.Set k v).applyOps ops).Delete k).Get k = (default, false) := by
  have h := hwf.1
  have h1 : 0 < (cm.Set k v).buckets.length := by
    rw [buckets_length_Set]
    exact h
  have h2 : 0 < ((cm.Set k v).applyOps ops).buckets.length := by
    rw [buckets_length_applyOps, buckets_length_Set]
    exact h
  have hfind : ((cm.Set k v).applyOps ops).find k = some v := by
    rw [find_applyOps_ne _ _ _ h1 hops, find_Set_self _ _ _ h]
  refine ⟨?_, ?_, ?_⟩
  · simp [ConcurrentMap.Get, hfind]
  · simp [ConcurrentMap.Get, find_Set_self _ _ _ h2]
  · simp [ConcurrentMap.Get, find_Delete_self _ _ (WF_applyOps _ _ (WF_Set cm k v hwf))]

theorem set_get_until_next_mutation_witness :
    ((ConcurrentMap.New (V := Nat) 4 (fun n => n)).WF
        ∧ ∀ op ∈ [MapOp.set 1 10, MapOp.del 2, MapOp.loadOrStore 3 5,
            MapOp.compute 1 (fun o (e : Bool) => (o + 1, true))], MapOp.key op ≠ 0)
      ∧ ((((ConcurrentMap.New (V := Nat) 4 (fun n => n)).Set 0 7).applyOps
            [MapOp.set 1 10, MapOp.del 2, MapOp.loadOrStore 3 5,
              MapOp.compute 1 (fun o (e : Bool) => (o + 1, true))]).Get 0 = (7, true)
          ∧ (((((ConcurrentMap.New (V := Nat) 4 (fun n => n)).Set 0 7).applyOps
            [MapOp.set 1 10, MapOp.del 2, MapOp.loadOrStore 3 5,
              MapOp.compute 1 (fun o (e : Bool) => (o + 1, true))]).Set 0 9).Get 0 = (9, true))
          ∧ (((((ConcurrentMap.New (V := Nat) 4 (fun n => n)).Set 0 7).applyOps
            [MapOp.set 1 10, MapOp.del 2, MapOp.loadOrStore 3 5,
              MapOp.compute 1 (fun o (e : Bool) => (o + 1, true))]).Delete 0).Get 0
              = (default, false))) :=
  ⟨⟨by decide, by decide⟩,
    set_get_until_next_mutation (ConcurrentMap.New 4 (fun n => n)) 0 7 9
      [MapOp.set 1 10, MapOp.del 2, MapOp.loadOrStore 3 5,
        MapOp.compute 1 (fun o (e : Bool) => (o + 1, true))]
      (by decide) (by decide)⟩

/-- C3: `Compute k fn` hands `fn` the current value (or the default when
absent) and the existence flag — exactly the components of `Get k` — then
the key is absent afterwards when `fn` answers `keep = false`, and maps to
the returned value when it answers `keep = true`. -/
theorem compute_spec [Inhabited V] (cm : ConcurrentMap K V) (k : K)
    (fn : V → Bool → V × Bool) (hwf : cm.WF) :
    ((fn (cm.Get k).1 (cm.Get k).2).2 = false →
        (cm.Compute k fn).Get k = (default, false))
      ∧ ((fn (cm.Get k).1 (cm.Get k).2).2 = true →
        (cm.Compute k fn).Get k = ((fn (cm.Get k).1 (cm.Get k).2).1, true)) := by
  have hc := find_Compute_self cm k fn hwf
  constructor
  · intro hkeep
    simp only [ConcurrentMap.Get] at hkeep ⊢
    rw [hc, hkeep]
    simp
  · intro hkeep
    simp only [ConcurrentMap.Get] at hkeep ⊢
    rw [hc, hkeep]
    simp

theorem compute_spec_witness :
    (((ConcurrentMap.New (V := Nat) 2 (fun n => n)).Set 1 5).WF
        ∧ ((fun (x : Nat) (e : Bool) => (x, false))
            ((((ConcurrentMap.New (V := Nat) 2 (fun n => n)).Set 1 5).Get 1).1)
            ((((ConcurrentMap.New (V := Nat) 2 (fun n => n)).Set 1 5).Get 1).2)).2 = false)
      ∧ (((ConcurrentMap.New (V := Nat) 2 (fun n => n)).Set 1 5).Compute 1
          (fun (x : Nat) (e : Bool) => (x, false))).Get 1 = (default, false) :=
  ⟨⟨by decide, by decide⟩,
    (compute_spec ((ConcurrentMap.New (V := Nat) 2 (fun n => n)).Set 1 5) 1
      (fun x e => (x, false)) (by decide)).1 (by decide)⟩

/-- C4: `LoadOrStore k v` on a present key returns the current value with
`loaded = true` and leaves the map unchanged; on an absent key it inserts
`v` and returns `(v, false)`.  Hence `LoadOrStore k v1` then
`LoadOrStore k v2` answers `(v1, true)` the second time and the map still
holds `v1`. -/
theorem loadOrStore_spec (cm : ConcurrentMap K V) (k : K) (v1 v2 : V)
    (h : 0 < cm.buckets.length) :
    (∀ w, cm.find k = some w → cm.LoadOrStore k v1 = ((w, true), cm))
      ∧ (cm.find k = none →
          (cm.LoadOrStore k v1).1 = (v1, false)
            ∧ (cm.LoadOrStore k v1).2.find k = some v1
            ∧ (cm.LoadOrStore k v1).2.LoadOrStore k v2
                = ((v1, true), (cm.LoadOrStore k v1).2)
            ∧ ((cm.LoadOrStore k v1).2.LoadOrStore k v2).2.find k = some v1) := by
  constructor
  · intro w hw
    exact LoadOrStore_present cm k v1 w hw
  · intro habs
    obtain ⟨hres, hfind⟩ := LoadOrStore_absent cm k v1 h habs
    have hsecond := LoadOrStore_present (cm.LoadOrStore k v1).2 k v2 v1 hfind
    refine ⟨hres, hfind, hsecond, ?_⟩
    rw [hsecond]
    exact hfind

theorem loadOrStore_spec_witness :
    (0 < (ConcurrentMap.New (V := Nat) 4 (fun n => n)).buckets.length
        ∧ (ConcurrentMap.New (V := Nat) 4 (fun n => n)).find 1 = none)
      ∧ ((ConcurrentMap.New (V := Nat) 4 (fun n => n)).LoadOrStore 1 5).1 = (5, false)
      ∧ ((ConcurrentMap.New (V := Nat) 4 (fun n => n)).LoadOrStore 1 5).2.LoadOrStore 1 6
          = ((5, true), ((ConcurrentMap.New (V := Nat) 4 (fun n => n)).LoadOrStore 1 5).2)
      ∧ (((ConcurrentMap.New (V := Nat) 4 (fun n => n)).LoadOrStore 1 5).2.LoadOrStore 1 6).2.find 1
          = some 5 :=
  ⟨⟨by decide, by decide⟩,
    ((loadOrStore_spec (ConcurrentMap.New 4 (fun n => n)) 1 5 6 (by decide)).2 (by decide)).1,
    (((loadOrStore_spec (ConcurrentMap.New 4 (fun n => n)) 1 5 6 (by decide)).2
        (by decide)).2).2.1,
    (((loadOrStore_spec (ConcurrentMap.New 4 (fun n => n)) 1 5 6 (by decide)).2
        (by decide)).2).2.2⟩

/-- C5: `Inc k delta` returns and stores `delta` when the key was absent,
and otherwise returns and stores `old + delta` in wrapping two's-complement
64-bit arithmetic; the key is present afterwards in both cases (`Inc` never
deletes).  Concretely, `Inc "x" 5` then `Inc "x" 3` answers `8` and
`Get "x"` is `(8, true)`. -/
theorem counter_inc_spec (cm : CounterMap K) (k : K) (delta old : Int)
    (hwf : cm.m.WF) :
    (cm.m.find k = none →
        (cm.Inc k delta).1 = delta ∧ (cm.Inc k delta).2.Get k = (delta, true))
      ∧ (cm.m.find k = some old →
        (cm.Inc k delta).1 = int64add old delta
          ∧ (cm.Inc k delta).2.Get k = (int64add old delta, true))
      ∧ ((((CounterMap.NewStringCounterMap 16).Inc "x" 5).2.Inc "x" 3).1 = 8
          ∧ ((((CounterMap.NewStringCounterMap 16).Inc "x" 5).2.Inc "x" 3).2.Get "x"
              = (8, true))) := by
  refine ⟨?_, ?_, by decide, by decide⟩
  · intro habs
    have hc := find_Compute_self cm.m k (incFn delta) hwf
    rw [habs] at hc
    simp only [Option.getD_none, Option.isSome_none, incFn, Bool.not_false, if_true] at hc
    refine ⟨by simp [CounterMap.Inc, habs], ?_⟩
    simp [CounterMap.Inc, CounterMap.Get, ConcurrentMap.Get, hc]
  · intro hsome
    have hc := find_Compute_self cm.m k (incFn delta) hwf
    rw [hsome] at hc
    simp only [Option.getD_some, Option.isSome_some, incFn, Bool.not_true,
      Bool.false_eq_true, if_false, if_true] at hc
    refine ⟨by simp [CounterMap.Inc, hsome], ?_⟩
    simp [CounterMap.Inc, CounterMap.Get, ConcurrentMap.Get, hc]

theorem counter_inc_spec_witness :
    (CounterMap.NewStringCounterMap 16).m.WF
      ∧ (CounterMap.NewStringCounterMap 16).m.find "x" = none
      ∧ ((CounterMap.NewStringCounterMap 16).Inc "x" 5).1 = 5
      ∧ ((CounterMap.NewStringCounterMap 16).Inc "x" 5).2.Get "x" = (5, true) :=
  ⟨by decide, by decide,
    ((counter_inc_spec (CounterMap.NewStringCounterMap 16) "x" 5 0 (by decide)).1
      (by decide)).1,
    ((counter_inc_spec (CounterMap.NewStringCounterMap 16) "x" 5 0 (by decide)).1
      (by decide)).2⟩

/-- C6: after `Delete k`, `Get k` answers `(default, false)`; deleting an
absent key is a no-op that leaves the map unchanged (and, the operation
being total, signals nothing). -/
theorem delete_spec [Inhabited V] (cm : ConcurrentMap K V) (k : K) (hwf : cm.WF) :
    (cm.Delete k).Get k = (default, false)
      ∧ (cm.find k = none → cm.Delete k = cm) := by
  refine ⟨?_, fun habs => Delete_absent cm k hwf.1 habs⟩
  simp [ConcurrentMap.Get, find_Delete_self cm k hwf]

theorem delete_spec_witness :
    ((ConcurrentMap.New (V := Nat) 3 (fun n => n)).Set 1 5).WF
      ∧ ((ConcurrentMap.New (V := Nat) 3 (fun n => n)).Set 1 5).find 2 = none
      ∧ (((ConcurrentMap.New (V := Nat) 3 (fun n => n)).Set 1 5).Delete 1).Get 1
          = (default, false)
      ∧ ((ConcurrentMap.New (V := Nat) 3 (fun n => n)).Set 1 5).Delete 2
          = (ConcurrentMap.New (V := Nat) 3 (fun n => n)).Set 1 5 :=
  ⟨by decide, by decide,
    (delete_spec ((ConcurrentMap.New (V := Nat) 3 (fun n => n)).Set 1 5) 1 (by decide)).1,
    (delete_spec ((ConcurrentMap.New (V := Nat) 3 (fun n => n)).Set 1 5) 2 (by decide)).2
      (by decide)⟩

/-- C7: from an empty map, `Set` on N distinct keys makes `Len` exactly N;
one further `Delete` of one of those keys makes it N-1; and `Len` is always
non-negative. -/
theorem len_spec (n : Nat) (hasher : K → Nat) (hn : 0 < n) (kvs : List (K × V))
    (hnd : (kvs.map Prod.fst).Nodup) :
    (kvs.foldl (fun m p => m.Set p.1 p.2) (ConcurrentMap.New n hasher)).Len = kvs.length
      ∧ (∀ k ∈ kvs.map Prod.fst,
          ((kvs.foldl (fun m p => m.Set p.1 p.2) (ConcurrentMap.New n hasher)).Delete k).Len
            = kvs.length - 1)
      ∧ ∀ (cm' : ConcurrentMap K V), 0 ≤ (cm'.Len : Int) := by
  have hlen0 : 0 < (ConcurrentMap.New (V := V) n hasher).buckets.length := by
    simpa [ConcurrentMap.New] using hn
  have habs : ∀ p ∈ kvs, (ConcurrentMap.New (V := V) n hasher).find p.1 = none :=
    fun p hp => find_New n hasher p.1
  have hfold := Len_foldlSet _ kvs hlen0 hnd habs
  rw [Len_New] at hfold
  refine ⟨by omega, ?_, fun cm' => by omega⟩
  intro k hk
  have hlenf :
      0 < (kvs.foldl (fun m p => m.Set p.1 p.2)
        (ConcurrentMap.New (V := V) n hasher)).buckets.length := by
    rw [buckets_length_foldlSet]
    exact hlen0
  have hsome := find_foldlSet_mem _ kvs k hlen0 hk
  rcases Option.isSome_iff_exists.mp hsome with ⟨w, hw⟩
  have hdel := Len_Delete_present _ k w hlenf hw
  omega

theorem len_spec_witness :
    (0 < 4 ∧ (([(1, 10), (2, 20), (3, 30)] : List (Nat × Nat)).map Prod.fst).Nodup)
      ∧ (([(1, 10), (2, 20), (3, 30)] : List (Nat × Nat)).foldl (fun m p => m.Set p.1 p.2)
          (ConcurrentMap.New (V := Nat) 4 (fun n => n))).Len = 3
      ∧ ((([(1, 10), (2, 20), (3, 30)] : List (Nat × Nat)).foldl (fun m p => m.Set p.1 p.2)
          (ConcurrentMap.New (V := Nat) 4 (fun n => n))).Delete 2).Len = 2 :=
  ⟨⟨by decide, by decide⟩,
    (len_spec 4 (fun n => n) (by decide) [(1, 10), (2, 20), (3, 30)] (by decide)).1,
    ((len_spec 4 (fun n => n) (by decide) [(1, 10), (2, 20), (3, 30)] (by decide)).2).1 2
      (by decide)⟩

/-- C8: TTL lifecycle.  A `Put` with a (positive) TTL stores
`⟨payload, true, now + ttl⟩`; a `Put` without one stores the record with
has-deadline `false`.  A `Get` finding a record with a deadline strictly in
the past deletes the key and reports not-found; whenever `Get` does return
a payload the record's deadline had not passed; and a record without a
deadline is returned whatever the read time. -/
theorem ttl_lifecycle {P : Type} (now t ttl : Int)
    (store : ConcurrentMap K (StoredValue P)) (k : K) (payload : P)
    (h : 0 < store.buckets.length) :
    (0 < ttl →
        (handlePutJSON now store k payload ttl).find k = some ⟨payload, true, now + ttl⟩)
      ∧ (¬ 0 < ttl →
        (handlePutJSON now store k payload ttl).find k = some ⟨payload, false, 0⟩)
      ∧ (∀ v, store.find k = some v → v.HasTTL = true → v.ExpiresAt < t →
          handleGetJSON t store k = (none, store.Delete k))
      ∧ (∀ v, store.find k = some v → ((handleGetJSON t store k).1).isSome →
          expiredAt t v = false)
      ∧ (∀ v, store.find k = some v → v.HasTTL = false →
          handleGetJSON t store k = (some (v.Data, none), store)) := by
  refine ⟨?_, ?_, ?_, ?_, ?_⟩
  · intro hpos
    rw [handlePutJSON, find_Set_self _ _ _ h, mkStored, if_pos hpos]
  · intro hneg
    rw [handlePutJSON, find_Set_self _ _ _ h, mkStored, if_neg hneg]
  · intro v hv hTTL hlt
    unfold handleGetJSON
    rw [hv]
    simp [expiredAt, hTTL, hlt]
  · intro v hv hsome
    unfold handleGetJSON at hsome
    rw [hv] at hsome
    by_cases hexp : expiredAt t v
    · simp [hexp] at hsome
    · simpa using hexp
  · intro v hv hTTL
    unfold handleGetJSON
    rw [hv]
    simp [expiredAt, hTTL]

theorem ttl_lifecycle_witness :
    0 < (ConcurrentMap.New (V := StoredValue Nat) 2 (fun n => n)).buckets.length
      ∧ (handlePutJSON 100 (ConcurrentMap.New (V := StoredValue Nat) 2 (fun n => n))
          1 7 5).find 1 = some ⟨7, true, 105⟩
      ∧ (handlePutJSON 100 (ConcurrentMap.New (V := StoredValue Nat) 2 (fun n => n))
          1 7 0).find 1 = some ⟨7, false, 0⟩ :=
  ⟨by decide,
    (ttl_lifecycle 100 0 5 (ConcurrentMap.New 2 (fun n => n)) 1 7 (by decide)).1
      (by decide),
    ((ttl_lifecycle 100 0 0 (ConcurrentMap.New 2 (fun n => n)) 1 7 (by decide)).2).1
      (by decide)⟩

/-- C9: the sweep is two-phase.  Its `Range` pass collects exactly the keys
whose record is past due at the sweep's `now`; after the delete pass,
exactly those keys are absent and every other entry is unchanged. -/
theorem sweep_two_phase {P : Type} (now : Int) (store : ConcurrentMap K (StoredValue P))
    (hwf : store.WF) :
    (∀ k', (k' ∈ store.Range
          (fun acc p => (if expiredAt now p.2 then acc ++ [p.1] else acc, true)) [])
        ↔ ∃ v, store.find k' = some v ∧ expiredAt now v)
      ∧ (∀ k v, store.find k = some v → expiredAt now v = true →
          (startExpiryWorkerOnce now store).find k = none)
      ∧ (∀ k v, store.find k = some v → expiredAt now v = false →
          (startExpiryWorkerOnce now store).find k = some v)
      ∧ (∀ k, store.find k = none → (startExpiryWorkerOnce now store).find k = none) := by
  refine ⟨fun k' => mem_collect_iff_expired now store hwf k', ?_, ?_, ?_⟩
  · intro k v hv hexp
    rw [sweep_find now store hwf k, hv]
    simp [hexp]
  · intro k v hv hexp
    rw [sweep_find now store hwf k, hv]
    simp [hexp]
  · intro k hv
    rw [sweep_find now store hwf k, hv]
    rfl

theorem sweep_two_phase_witness :
    (handlePutJSON 0 (handlePutJSON 0
        (ConcurrentMap.New (V := StoredValue Nat) 2 (fun n => n)) 1 9 5) 2 8 0).WF
      ∧ (startExpiryWorkerOnce 10 (handlePutJSON 0 (handlePutJSON 0
          (ConcurrentMap.New (V := StoredValue Nat) 2 (fun n => n)) 1 9 5) 2 8 0)).find 1
          = none
      ∧ (startExpiryWorkerOnce 10 (handlePutJSON 0 (handlePutJSON 0
          (ConcurrentMap.New (V := StoredValue Nat) 2 (fun n => n)) 1 9 5) 2 8 0)).find 2
          = some ⟨8, false, 0⟩ :=
  ⟨by decide,
    ((sweep_two_phase 10 (handlePutJSON 0 (handlePutJSON 0
        (ConcurrentMap.New (V := StoredValue Nat) 2 (fun n => n)) 1 9 5) 2 8 0)
      (by decide)).2).1 1 ⟨9, true, 5⟩ (by decide) (by decide),
    (((sweep_two_phase 10 (handlePutJSON 0 (handlePutJSON 0
        (ConcurrentMap.New (V := StoredValue Nat) 2 (fun n => n)) 1 9 5) 2 8 0)
      (by decide)).2).2).1 2 ⟨8, false, 0⟩ (by decide) (by decide)⟩

/-- C10 (implicit): a `Put` whose requested `ttl_seconds` is zero or
negative stores the record with has-deadline `false`, so it never expires:
every later `Get` returns the payload whatever the elapsed time, and the
sweep never deletes it. -/
theorem nonpositive_ttl_never_expires {P : Type} (now ttl : Int)
    (store : ConcurrentMap K (StoredValue P)) (k : K) (payload : P)
    (hwf : store.WF) (httl : ttl ≤ 0) :
    (handlePutJSON now store k payload ttl).find k = some ⟨payload, false, 0⟩
      ∧ (∀ t, handleGetJSON t (handlePutJSON now store k payload ttl) k
          = (some (payload, none), handlePutJSON now store k payload ttl))
      ∧ (∀ t, (startExpiryWorkerOnce t (handlePutJSON now store k payload ttl)).find k
          = some ⟨payload, false, 0⟩) := by
  have h := hwf.1
  have hfind : (handlePutJSON now store k payload ttl).find k
      = some ⟨payload, false, 0⟩ := by
    rw [handlePutJSON, find_Set_self _ _ _ h, mkStored, if_neg (by omega)]
  have hwfPut : (handlePutJSON now store k payload ttl).WF :=
    WF_Set store k (mkStored now payload ttl) hwf
  refine ⟨hfind, ?_, ?_⟩
  · intro t
    unfold handleGetJSON
    rw [hfind]
    simp [expiredAt]
  · intro t
    rw [sweep_find t _ hwfPut, hfind]
    simp [expiredAt]

theorem nonpositive_ttl_never_expires_witness :
    ((ConcurrentMap.New (V := StoredValue Nat) 2 (fun n => n)).WF ∧ (-3 : Int) ≤ 0)
      ∧ (handlePutJSON 0 (ConcurrentMap.New (V := StoredValue Nat) 2 (fun n => n))
          1 7 (-3)).find 1 = some ⟨7, false, 0⟩
      ∧ (startExpiryWorkerOnce 1000000
          (handlePutJSON 0 (ConcurrentMap.New (V := StoredValue Nat) 2 (fun n => n))
            1 7 (-3))).find 1 = some ⟨7, false, 0⟩ :=
  ⟨⟨by decide, by decide⟩,
    (nonpositive_ttl_never_expires 0 (-3)
      (ConcurrentMap.New (V := StoredValue Nat) 2 (fun n => n)) 1 7 (by decide)
      (by decide)).1,
    ((nonpositive_ttl_never_expires 0 (-3)
      (ConcurrentMap.New (V := StoredValue Nat) 2 (fun n => n)) 1 7 (by decide)
      (by decide)).2).2 1000000⟩

end SafeMap
